import Mathlib

/-!
Verification of the conversation-export-to-Markdown converter
(`chatgpt_converter.py`).

The Python source is shallowly embedded: dynamically typed Python values
become the inductive type `PyVal`; Python dicts are association lists in
insertion order; functions that can raise return `Except Unit`; the
`while` loops of the source are modelled with an explicit fuel parameter
(the fuel is shown adequate by theorems, which is exactly the termination
content of the corresponding claims).  All definitions are executable and
evaluate by `rfl` / `decide` on concrete inputs.

Machine-level caveats of the embedding, stated once here:
* Python `int` is unbounded, modelled by `Int`; the source's timestamps
  are numeric seconds, modelled as integers (no floats appear in any
  claim or test).
* Character classes (`\w`, `\s`) are modelled over their ASCII part;
  the source relies on them only for ASCII inputs in its tests.
* `datetime.fromtimestamp` is modelled in UTC (a fixed timezone choice);
  only the *format* of the result is relevant to any claim.
-/

/-! ### Character predicates (ASCII fragment of Python `\s`, `\w`) -/

/-- Python `\s` on the ASCII range: space, tab, newline, carriage return,
vertical tab, form feed. -/
def pyIsSpace (c : Char) : Bool :=
  c = ' ' || c = '\t' || c = '\n' || c = '\r' || c = Char.ofNat 11 || c = Char.ofNat 12

/-- Python `\w` on the ASCII range: letters, digits and the underscore. -/
def pyIsWord (c : Char) : Bool :=
  ('a' ≤ c && c ≤ 'z') || ('A' ≤ c && c ≤ 'Z') || ('0' ≤ c && c ≤ '9') || c = '_'

/-- Decimal digit test, used by the citation-token scanners (`\d`). -/
def isDigitCh (c : Char) : Bool :=
  '0' ≤ c && c ≤ '9'

/-- Private-use-area test: U+E000 through U+F8FF (the character class of
`clean_citation_artifacts`). -/
def isPUA (c : Char) : Bool :=
  0xE000 ≤ c.val && c.val ≤ 0xF8FF

/-! ### Generic string helpers (and `str.strip`, whitespace collapse,
decimal printing of `str(int)`) -/

/-- Python `str.strip()` on a character list: drop whitespace from both ends. -/
def trimWs (l : List Char) : List Char :=
  ((l.dropWhile pyIsSpace).reverse.dropWhile pyIsSpace).reverse

/-- Worker for `collapseWs`; the flag records whether the previous character
was whitespace (so that a run contributes a single space). -/
def collapseGo : Bool → List Char → List Char
  | _, [] => []
  | inRun, c :: cs =>
    if pyIsSpace c then
      if inRun then collapseGo true cs else ' ' :: collapseGo true cs
    else c :: collapseGo false cs

/-- Embedding of `re.sub(r'\s+', ' ', text)`: every maximal whitespace run
becomes a single space. -/
def collapseWs (l : List Char) : List Char :=
  collapseGo false l

/-- Decimal digits of a natural number, most significant first; `fuel`
bounds the recursion depth (adequate once `n < 10 ^ fuel`). -/
def decDigits : Nat → Nat → List Char
  | 0, _ => []
  | f + 1, n =>
    if n < 10 then [Char.ofNat (48 + n)]
    else decDigits f (n / 10) ++ [Char.ofNat (48 + n % 10)]

/-- Embedding of Python `str(n)` for a non-negative integer counter. -/
def natToDec (n : Nat) : String :=
  String.mk (decDigits (n + 1) n)

/-- Left-inverse of `decDigits`: reads a decimal digit string back. -/
def decOfDigits (l : List Char) : Nat :=
  l.foldl (fun a c => 10 * a + (c.toNat - 48)) 0

/-- Substring test on character lists (used to state claims about rendered
documents). -/
def containsSub (pat : List Char) : List Char → Bool
  | [] => pat.isPrefixOf []
  | c :: cs => pat.isPrefixOf (c :: cs) || containsSub pat cs

/-- Python `text.split('\n')` on a character list; always returns at least
one (possibly empty) piece. -/
def splitNl : List Char → List (List Char)
  | [] => [[]]
  | c :: cs =>
    match splitNl cs with
    | [] => [[c]]
    | r0 :: rs => if c = '\n' then [] :: r0 :: rs else (c :: r0) :: rs

/-! ### The dynamic value model -/

/-- Dynamically typed Python values, restricted to the shapes the converter
manipulates.  Dicts carry string keys in insertion order. -/
inductive PyVal where
  | none
  | int (n : Int)
  | str (s : String)
  | list (xs : List PyVal)
  | dict (kvs : List (String × PyVal))

/-- Python truthiness: `None`, `0`, `''`, `[]`, `{}` are falsy. -/
def pyTruthy : PyVal → Bool
  | .none => false
  | .int n => n ≠ 0
  | .str s => s ≠ ""
  | .list xs => !xs.isEmpty
  | .dict kvs => !kvs.isEmpty

/-- Test for `isinstance(v, dict)`. -/
def PyVal.isDict : PyVal → Bool
  | .dict _ => true
  | _ => false

/-- Python hashability for the fragment: `None`, ints and strings are
hashable; lists and dicts are not. -/
def pyHashable : PyVal → Bool
  | .none => true
  | .int _ => true
  | .str _ => true
  | .list _ => false
  | .dict _ => false

/-- Equality of hashable (atomic) values; this is the only equality the
source ever applies to dynamic values (set membership and `==` checks). -/
def pyEqAtom : PyVal → PyVal → Bool
  | .none, .none => true
  | .int m, .int n => m = n
  | .str s, .str t => s = t
  | _, _ => false

/-- Membership of an atomic value in a list of values (Python `x in set`
once `x` is known hashable). -/
def pyMemAtom (v : PyVal) (l : List PyVal) : Bool :=
  l.any (pyEqAtom v)

/-- Embedding of `d.get(k, default)` where `d` is known to be a dict. -/
def pyGetD (kvs : List (String × PyVal)) (k : String) (d : PyVal) : PyVal :=
  (kvs.lookup k).getD d

/-- Embedding of `v.get(k, default)` on an arbitrary value: raises
(`AttributeError`) unless `v` is a dict. -/
def pyGetE (v : PyVal) (k : String) (d : PyVal) : Except Unit PyVal :=
  match v with
  | .dict kvs => .ok (pyGetD kvs k d)
  | _ => .error ()

/-- Embedding of Python set membership `v in s` on an arbitrary value:
raises (`TypeError: unhashable`) unless `v` is hashable. -/
def pyMemE (v : PyVal) (l : List PyVal) : Except Unit Bool :=
  if pyHashable v then .ok (pyMemAtom v l) else .error ()

/-! ### Text sanitizer: `clean_filename` -/

/-- Characters removed by `re.sub(r'[<>:"/\\|?*]', '', text)` (illegal in
filesystem names). -/
def isIllegalFsChar (c : Char) : Bool :=
  c = '<' || c = '>' || c = ':' || c = '"' || c = '/' || c = '\\' ||
  c = '|' || c = '?' || c = '*'

/-- Embedding of `clean_filename` (source lines 200-211): remove illegal
filename characters, keep only `\w`, whitespace, period and hyphen,
collapse whitespace runs to single spaces, strip, truncate to 100
characters. -/
def clean_filename (text : String) : String :=
  let t1 := text.data.filter (fun c => !isIllegalFsChar c)
  let t2 := t1.filter (fun c => pyIsWord c || pyIsSpace c || c = '.' || c = '-')
  let t3 := collapseWs t2
  let t4 := trimWs t3
  String.mk (t4.take 100)

/-- Applying `clean_filename` to a dynamic value: `re.sub` raises
`TypeError` unless the value is a string. -/
def cleanFilenameE : PyVal → Except Unit String
  | .str s => .ok (clean_filename s)
  | _ => .error ()

/-! ### Citation-artifact cleaner

The four `re.sub` passes of `clean_citation_artifacts` (source lines
162-178) are compiled to deterministic scanners.  This compilation is
exact: in every sub-pattern `X*Y` the first character acceptable to `Y`
is never acceptable to `X` (digits are followed by `s`, `n`, private-use
characters or `.`; private-use runs are followed by `c`, `n`, `t` or
`.`), so maximal munch never needs backtracking, and the lazy `.*?` of
pass 1 is the first occurrence of the tail pattern on the same line
(`.` does not match a newline). -/

/-- Match a literal pattern and return the remaining characters. -/
def matchAfter (pat : List Char) (l : List Char) : Option (List Char) :=
  if pat.isPrefixOf l then some (l.drop pat.length) else none

/-- Match `turn\d+(?:search|news)\d+` then (when `withPua` is set) a run
of private-use-area characters, then an optional period; returns the
suffix after the match. `withPua := true` gives the tail shared by passes 1 and 2,
`withPua := false` gives pass 3. -/
def matchTurnTail (withPua : Bool) (l : List Char) : Option (List Char) :=
  match matchAfter "turn".data l with
  | none => none
  | some r1 =>
    let d1 := r1.takeWhile isDigitCh
    let r2 := r1.dropWhile isDigitCh
    if d1.isEmpty then none
    else
      match (matchAfter "search".data r2).orElse (fun _ => matchAfter "news".data r2) with
      | none => none
      | some r3 =>
        let d2 := r3.takeWhile isDigitCh
        let r4 := r3.dropWhile isDigitCh
        if d2.isEmpty then none
        else
          let r5 := if withPua then r4.dropWhile isPUA else r4
          match r5 with
          | '.' :: rest => some rest
          | _ => some r5

/-- Lazy `.*?` of pass 1: find the first position on the current line
where the turn-tail matches; `.` does not cross a newline. -/
def findTailInLine : List Char → Option (List Char)
  | [] => none
  | c :: cs =>
    match matchTurnTail true (c :: cs) with
    | some rest => some rest
    | none => if c = '\n' then none else findTailInLine cs

/-- Pass 1 matcher: an optional private-use run, `cite` or `navlist`, an
optional private-use run, a lazy gap, then the turn tail. -/
def tryPass1 (l : List Char) : Option (List Char) :=
  let r1 := l.dropWhile isPUA
  match (matchAfter "cite".data r1).orElse (fun _ => matchAfter "navlist".data r1) with
  | none => none
  | some r2 => findTailInLine (r2.dropWhile isPUA)

/-- Scanner of `re.sub(pattern, '', s)` for a pattern that never matches
the empty string: at each position try the matcher; on success drop the
match and resume after it, otherwise keep the character and advance. -/
def subScan (try1 : List Char → Option (List Char)) : Nat → List Char → List Char
  | 0, l => l
  | _ + 1, [] => []
  | fuel + 1, c :: cs =>
    match try1 (c :: cs) with
    | some rest => subScan try1 fuel rest
    | none => c :: subScan try1 fuel cs

/-- Pass 1 of `clean_citation_artifacts`. -/
def ccPass1 (l : List Char) : List Char :=
  subScan tryPass1 (l.length + 1) l

/-- Pass 2: the turn tail with its optional private-use run and period. -/
def ccPass2 (l : List Char) : List Char :=
  subScan (fun l0 => matchTurnTail true l0) (l.length + 1) l

/-- Pass 3: `turn\d+(?:search|news)\d+\.?`. -/
def ccPass3 (l : List Char) : List Char :=
  subScan (fun l0 => matchTurnTail false l0) (l.length + 1) l

/-- Pass 4 deletes every maximal run of private-use-area characters,
i.e. every such character. -/
def ccPass4 (l : List Char) : List Char :=
  l.filter (fun c => !isPUA c)

/-- Embedding of `clean_citation_artifacts` (source lines 162-178). -/
def clean_citation_artifacts (content : String) : String :=
  String.mk (ccPass4 (ccPass3 (ccPass2 (ccPass1 content.data))))

/-! ### Conversation tree walker: `extract_messages` -/

/-- Output record of the walker (`{'author': ..., 'content': ...}`);
the author is whatever dynamic value the node carried as role. -/
structure Msg where
  author : PyVal
  content : String

/-- Embedding of `''.join(part for part in parts if isinstance(part, str))`. -/
def partsText (xs : List PyVal) : String :=
  String.mk (xs.foldl (fun acc p => match p with | .str s => acc ++ s.data | _ => acc) [])

/-- Root search, first pass (source lines 44-47): first entry whose
`parent` is `None` and whose `message` is truthy. -/
def findRootA : List (String × PyVal) → Except Unit (Option String)
  | [] => .ok Option.none
  | (k, v) :: rest => do
    let p ← pyGetE v "parent" .none
    let m ← pyGetE v "message" .none
    if pyEqAtom p .none && pyTruthy m then .ok (some k) else findRootA rest

/-- Root search, fallback pass (source lines 50-54): first entry with a
truthy `message` whose `content` is truthy. -/
def findRootB : List (String × PyVal) → Except Unit (Option String)
  | [] => .ok Option.none
  | (k, v) :: rest => do
    let m ← pyGetE v "message" .none
    if pyTruthy m then do
      let c ← pyGetE m "content" .none
      if pyTruthy c then .ok (some k) else findRootB rest
    else findRootB rest

/-- Truthiness of the `root_id` variable (`None` or a key string). -/
def optTruthy : Option String → Bool
  | Option.none => false
  | some s => !(s == "")

/-- One iteration body of the traversal loop (source lines 64-92): given
the node value, produce the optional extracted message and the next
`current_id` value (`children[0] if children else None`). -/
def nodeStep (node : PyVal) : Except Unit (Option Msg × PyVal) := do
  let message ← pyGetE node "message" (.dict [])
  let mOpt ←
    if pyTruthy message then do
      let content0 ← pyGetE message "content" .none
      if pyTruthy content0 then do
        let authorV ← pyGetE message "author" (.dict [])
        let role ← pyGetE authorV "role" (.str "unknown")
        let text : String :=
          match content0 with
          | .dict ckvs =>
            match pyGetD ckvs "parts" (.list []) with
            | .list ps => if ps.isEmpty then "" else partsText ps
            | _ => ""
          | .str s => s
          | _ => ""
        let t := trimWs text.data
        pure (if t.isEmpty then Option.none else some (Msg.mk role (String.mk t)))
      else pure Option.none
    else pure Option.none
  let children ← pyGetE node "children" (.list [])
  let next ←
    if pyTruthy children then
      match children with
      | .list (x :: _) => pure x
      | .str s =>
        match s.data with
        | c :: _ => pure (PyVal.str (String.mk [c]))
        | [] => .error ()
      | _ => .error ()
    else pure PyVal.none
  pure (mOpt, next)

/-- The node value fetched by `mapping.get(current_id, {})`: a present
string key yields its node, anything else the empty-dict default. -/
def walkNode (kvs : List (String × PyVal)) : PyVal → PyVal
  | .str s => pyGetD kvs s (.dict [])
  | _ => .dict []

/-- The traversal `while` loop with explicit fuel; `Option.none` means the
fuel ran out before the loop condition failed (shown unreachable for the
fuel used by `extract_messages`). -/
def walkF (kvs : List (String × PyVal)) : Nat → PyVal → List PyVal → Option (Except Unit (List Msg))
  | 0, _, _ => Option.none
  | fuel + 1, cur, visited =>
    if !pyTruthy cur then some (.ok [])
    else if !pyHashable cur then some (.error ())
    else if pyMemAtom cur visited then some (.ok [])
    else
      match nodeStep (walkNode kvs cur) with
      | .error e => some (.error e)
      | .ok (mOpt, next) =>
        match walkF kvs fuel next (cur :: visited) with
        | Option.none => Option.none
        | some (.error e) => some (.error e)
        | some (.ok ms) => some (.ok (mOpt.toList ++ ms))

/-- Fuel used by `extract_messages`; adequacy is proved below
(`walkF_adequate`). -/
def walkFuel (kvs : List (String × PyVal)) : Nat :=
  2 * kvs.length + 3

/-- Embedding of `extract_messages` (source lines 33-94). -/
def extract_messages (mapping : PyVal) : Except Unit (List Msg) :=
  match mapping with
  | .dict kvs => do
    let rootA ← findRootA kvs
    let root ← if optTruthy rootA then pure rootA else findRootB kvs
    match root with
    | some r =>
      if r == "" then pure []
      else
        match walkF kvs (walkFuel kvs) (.str r) [] with
        | some result => result
        | Option.none => pure []
    | Option.none => pure []
  | _ => .error ()

/-! ### Markdown renderer: `convert_conversation_to_markdown` -/

/-- Lower bound of `datetime.fromtimestamp` (year 1, modelled in UTC). -/
def minTimestamp : Int := -62135596800

/-- Upper bound of `datetime.fromtimestamp` (year 9999, modelled in UTC). -/
def maxTimestamp : Int := 253402300799

/-- Embedding of `datetime.fromtimestamp(v)`: accepts a number inside the
representable range, raises `TypeError`/`OverflowError` otherwise. -/
def pyFromtimestamp : PyVal → Except Unit Int
  | .int n => if minTimestamp ≤ n ∧ n ≤ maxTimestamp then .ok n else .error ()
  | _ => .error ()

/-- Civil date from a shifted day number (`z` = days since the epoch plus
719468, guaranteed non-negative in range); standard era-based algorithm. -/
def civilFromDays (z : Nat) : Nat × Nat × Nat :=
  let era := z / 146097
  let doe := z % 146097
  let yoe := (doe - doe / 1460 + doe / 36524 - doe / 146096) / 365
  let y := yoe + era * 400
  let doy := doe - (365 * yoe + yoe / 4 - yoe / 100)
  let mp := (5 * doy + 2) / 153
  let d := doy - (153 * mp + 2) / 5 + 1
  let m := if mp < 10 then mp + 3 else mp - 9
  (if m ≤ 2 then y + 1 else y, m, d)

/-- Zero-pad a number below 100 to two digits (`%m`, `%d`, `%H`, `%M`, `%S`). -/
def pad2 (n : Nat) : List Char :=
  if n < 10 then '0' :: decDigits 2 n else decDigits 2 n

/-- Zero-pad a year to four digits (`%Y`). -/
def pad4 (n : Nat) : List Char :=
  let ds := decDigits 4 n
  List.replicate (4 - ds.length) '0' ++ ds

/-- Embedding of `datetime.fromtimestamp(t).strftime('%Y-%m-%d, %H:%M:%S')`
in UTC for an in-range timestamp. -/
def formatTs (t : Int) : String :=
  let days := ((t.ediv 86400) + 719468).toNat
  let secs := (t.emod 86400).toNat
  let ymd := civilFromDays days
  String.mk (pad4 ymd.1 ++ '-' :: pad2 ymd.2.1 ++ '-' :: pad2 ymd.2.2 ++
    ',' :: ' ' :: pad2 (secs / 3600) ++ ':' :: pad2 (secs % 3600 / 60) ++
    ':' :: pad2 (secs % 60))

/-- Embedding of `format_as_blockquote` (source lines 110-117): prefix each
non-blank line with `"> "`, render blank lines as a bare `">"`. -/
def format_as_blockquote (content : String) : String :=
  if content = "" then ""
  else
    String.mk (List.intercalate ['\n']
      ((splitNl content.data).map fun l =>
        if l.all pyIsSpace then ['>'] else '>' :: ' ' :: l))

/-- Author label of the renderer (source line 146). -/
def authorDisplay (author : PyVal) : String :=
  if pyEqAtom author (.str "user") then "**🧑‍💬 User**" else "**🤖 Assistant**"

/-- Embedding of `convert_conversation_to_markdown` (source lines 120-159).
The `title` is read (line 122) but never used in the output. -/
def convert_conversation_to_markdown (conversation : PyVal) : Except Unit String :=
  match pyGetE conversation "title" (.str "Untitled Conversation") with
  | .error e => .error e
  | .ok _title =>
    match pyGetE conversation "create_time" (.int 0) with
    | .error e => .error e
    | .ok createTime =>
      match pyGetE conversation "mapping" (.dict []) with
      | .error e => .error e
      | .ok mapping =>
        match extract_messages mapping with
        | .error e => .error e
        | .ok messages =>
          match pyFromtimestamp createTime with
          | .error e => .error e
          | .ok t =>
            .ok (clean_citation_artifacts (String.intercalate "\n"
              (["**Created:** " ++ formatTs t, "", "---", ""] ++
                messages.flatMap (fun m =>
                  [authorDisplay m.author, "", format_as_blockquote m.content, ""]))))

/-! ### Filename allocator: `generate_filename` -/

/-- The collision `while` loop of `generate_filename` (source lines
232-235) with explicit fuel; fuel `existing.length + 1` is proved adequate
below. -/
def genLoop (base : String) (used : List String) : Nat → String → Nat → String
  | 0, cand, _ => cand
  | fuel + 1, cand, counter =>
    if cand ∈ used then
      genLoop base used fuel (base ++ " (" ++ natToDec counter ++ ").md") (counter + 1)
    else cand

/-- Embedding of `generate_filename` (source lines 214-237). -/
def generate_filename (conversation : PyVal) (existing_filenames : List String) : Except Unit String := do
  let title ← pyGetE conversation "title" (.str "Untitled Conversation")
  let base0 ← cleanFilenameE title
  let base := if base0 = "" then "Conversation" else base0
  pure (genLoop base existing_filenames (existing_filenames.length + 1) (base ++ ".md") 2)

/-! ### Batch processor: `process_conversations` -/

/-- The per-conversation output record (source lines 295-300). -/
structure FileData where
  filename : String
  content : String
  title : PyVal
  conversation_id : PyVal

/-- The aggregate result dictionary (source lines 245-250). -/
structure ProcResult where
  processed : Nat
  skipped : Nat
  errors : Nat
  files : List FileData

/-- Body of the `try` block (source lines 287-291): render, then allocate a
filename against the names used so far. -/
def renderStep (conv : PyVal) (used : List String) : Except Unit (String × String) := do
  let md ← convert_conversation_to_markdown conv
  let fn ← generate_filename conv used
  pure (md, fn)

/-- The `id` of a conversation entry (`conversation.get('id')`). -/
def convId (conv : PyVal) : PyVal :=
  match conv with
  | .dict kvs => pyGetD kvs "id" .none
  | _ => .none

/-- The `create_time` sort key (`x.get('create_time', 0)`). -/
def createKey (conv : PyVal) : PyVal :=
  match conv with
  | .dict kvs => pyGetD kvs "create_time" (.int 0)
  | _ => .int 0

/-- The stored display title (`conversation.get('title', 'Untitled')`,
source line 298). -/
def convTitleStored (conv : PyVal) : PyVal :=
  match conv with
  | .dict kvs => pyGetD kvs "title" (.str "Untitled")
  | _ => .str "Untitled"

/-- The `for conversation in sorted_conversations` loop of
`process_conversations` (source lines 266-308).  The membership test on
the seen-id set happens outside the `try` block and can raise; failures
of `renderStep` are caught and counted. -/
def processLoop : List PyVal → List PyVal → List String → ProcResult → Except Unit (ProcResult × List PyVal × List String)
  | [], seen, used, res => .ok (res, seen, used)
  | conv :: rest, seen, used, res =>
    if !(pyTruthy conv && conv.isDict) then
      processLoop rest seen used { res with errors := res.errors + 1 }
    else
      let cid := convId conv
      if !pyTruthy cid then
        processLoop rest seen used { res with errors := res.errors + 1 }
      else
        match pyMemE cid seen with
        | .error e => .error e
        | .ok true =>
          processLoop rest seen used { res with skipped := res.skipped + 1 }
        | .ok false =>
          match renderStep conv used with
          | .error _ => processLoop rest seen used { res with errors := res.errors + 1 }
          | .ok (md, fn) =>
            processLoop rest (cid :: seen) (used ++ [fn])
              (ProcResult.mk (res.processed + 1) res.skipped res.errors
                (res.files ++ [FileData.mk fn md (convTitleStored conv) cid]))

/-- Lexicographic comparison of strings by code point (Python `str <`). -/
def charListLt : List Char → List Char → Bool
  | [], [] => false
  | [], _ :: _ => true
  | _ :: _, [] => false
  | a :: as, b :: bs =>
    if a.val < b.val then true
    else if b.val < a.val then false
    else charListLt as bs

/-- Comparison used by `sorted(..., key=lambda x: x.get('create_time', 0))`:
Python `<` on the dynamic sort keys.  Int-int and str-str comparisons are
defined; mixed or unorderable operands raise `TypeError`.  (Python also
orders two lists elementwise; no claim involves list-valued timestamps,
and such keys are modelled as unorderable.) -/
def pyLtE : PyVal → PyVal → Except Unit Bool
  | .int m, .int n => .ok (decide (m < n))
  | .str s, .str t => .ok (charListLt s.data t.data)
  | _, _ => .error ()

/-- Stable insertion with the possibly-raising comparison: the new element
is placed before the first strictly greater element, hence after equal
keys.  Together with the left fold of `sortByKeyE` this is the unique
stable sort, agreeing with CPython's `sorted` whenever all keys are
mutually comparable, and performing exactly CPython's single comparison
on two-element inputs. -/
def insertByKeyE (x : PyVal) : List PyVal → Except Unit (List PyVal)
  | [] => .ok [x]
  | y :: ys =>
    match pyLtE (createKey x) (createKey y) with
    | .error e => .error e
    | .ok true => .ok (x :: y :: ys)
    | .ok false =>
      match insertByKeyE x ys with
      | .error e => .error e
      | .ok zs => .ok (y :: zs)

/-- Left fold of the stable insertion over the input list. -/
def sortGoE (acc : List PyVal) : List PyVal → Except Unit (List PyVal)
  | [] => .ok acc
  | x :: xs =>
    match insertByKeyE x acc with
    | .error e => .error e
    | .ok acc2 => sortGoE acc2 xs

/-- Embedding of `sorted(valid_conversations, key=...)` (source line 259). -/
def sortByKeyE (l : List PyVal) : Except Unit (List PyVal) :=
  sortGoE [] l

/-- The pre-filter of source line 258:
`[conv for conv in conversations if conv and isinstance(conv, dict)]`. -/
def validOf (conversations : List PyVal) : List PyVal :=
  conversations.filter (fun conv => pyTruthy conv && conv.isDict)

/-- Embedding of `process_conversations` (source lines 240-310).  The
process-wide `processed_ids` set is passed in and returned explicitly. -/
def process_conversations (conversations : List PyVal) (processed_ids : List PyVal) : Except Unit (ProcResult × List PyVal) :=
  match sortByKeyE (validOf conversations) with
  | .error e => .error e
  | .ok sorted =>
    match processLoop sorted processed_ids [] (ProcResult.mk 0 0 0 []) with
    | .error e => .error e
    | .ok out => .ok (out.1, out.2.1)

/-! ### Ghost definitions used only to state and prove theorems -/

/-- A pure variant of the processing loop that pairs every produced file
with the conversation it came from; used to state ordering properties of
the output (`processLoop` keeps no pointer from a file back to its
conversation).  Branches mirror `processLoop`; the unhashable-id branch,
where the real loop raises, yields no further pairs. -/
def processPairs : List PyVal → List PyVal → List String → List (PyVal × FileData)
  | [], _, _ => []
  | conv :: rest, seen, used =>
    if !(pyTruthy conv && conv.isDict) then processPairs rest seen used
    else
      let cid := convId conv
      if !pyTruthy cid then processPairs rest seen used
      else if !pyHashable cid then []
      else if pyMemAtom cid seen then processPairs rest seen used
      else
        match renderStep conv used with
        | .error _ => processPairs rest seen used
        | .ok (md, fn) =>
          (conv, FileData.mk fn md (convTitleStored conv) cid) ::
            processPairs rest (cid :: seen) (used ++ [fn])

/-- Integer projection of the `create_time` sort key (meaningful under the
hypothesis that the key is an integer). -/
def keyInt (conv : PyVal) : Int :=
  match createKey conv with
  | .int n => n
  | _ => 0

/-- A conversation entry has an integer sort key. -/
def intKeyed (conv : PyVal) : Prop :=
  createKey conv = .int (keyInt conv)

/-- Pure stable insertion used to describe `insertByKeyE` under integer
keys. -/
def insertI (x : PyVal) : List PyVal → List PyVal
  | [] => [x]
  | y :: ys => if keyInt x < keyInt y then x :: y :: ys else y :: insertI x ys

/-- Pure stable insertion sort describing `sortByKeyE` under integer keys. -/
def sortI (l : List PyVal) : List PyVal :=
  l.foldl (fun acc x => insertI x acc) []

/-! ### Decimal printing is injective -/

theorem decOfDigits_append (l1 l2 : List Char) :
    decOfDigits (l1 ++ l2) = (l2.foldl (fun a c => 10 * a + (c.toNat - 48)) (decOfDigits l1)) := by
  unfold decOfDigits
  exact List.foldl_append _ _ _ _

theorem decOfDigits_decDigits (f n : Nat) (h : n < 10 ^ f) :
    decOfDigits (decDigits f n) = n := by
  induction f generalizing n with
  | zero =>
    interval_cases n
    rfl
  | succ f ih =>
    by_cases h10 : n < 10
    · have hd : ∀ m < 10, (Char.ofNat (48 + m)).toNat - 48 = m := by decide
      simp only [decDigits, if_pos h10, decOfDigits, List.foldl]
      rw [hd n h10]
      omega
    · have hdiv : n / 10 < 10 ^ f := by
        rw [Nat.div_lt_iff_lt_mul (by norm_num)]
        calc n < 10 ^ (f + 1) := h
        _ = 10 ^ f * 10 := by ring
      have hd : ∀ m < 10, (Char.ofNat (48 + m)).toNat - 48 = m := by decide
      simp only [decDigits, if_neg h10]
      rw [decOfDigits_append]
      simp only [List.foldl]
      rw [ih _ hdiv, hd _ (Nat.mod_lt n (by norm_num))]
      omega

theorem natToDec_injective : Function.Injective natToDec := by
  intro m n h
  have hm : m < 10 ^ (m + 1) :=
    lt_of_lt_of_le (Nat.lt_pow_self (by norm_num) m) (Nat.pow_le_pow_right (by norm_num) (by omega))
  have hn : n < 10 ^ (n + 1) :=
    lt_of_lt_of_le (Nat.lt_pow_self (by norm_num) n) (Nat.pow_le_pow_right (by norm_num) (by omega))
  have hdata : decDigits (m + 1) m = decDigits (n + 1) n := congrArg String.data h
  calc m = decOfDigits (decDigits (m + 1) m) := (decOfDigits_decDigits _ _ hm).symm
  _ = decOfDigits (decDigits (n + 1) n) := by rw [hdata]
  _ = n := decOfDigits_decDigits _ _ hn

/-! ### The candidate stream of the filename collision loop -/

/-- The i-th filename candidate examined by `generate_filename`: first the
bare `base.md`, then `base (2).md`, `base (3).md`, and so on. -/
def candAt (base : String) : Nat → String
  | 0 => base ++ ".md"
  | i + 1 => base ++ " (" ++ natToDec (2 + i) ++ ").md"

theorem suffix_cancel {s t : String} (base : String)
    (h : base ++ s = base ++ t) : s = t := by
  have hd : base.data ++ s.data = base.data ++ t.data := by
    have := congrArg String.data h
    simpa [String.data_append] using this
  exact String.ext (List.append_cancel_left hd)

theorem candAt_injective (base : String) : Function.Injective (candAt base) := by
  intro i j h
  match i, j with
  | 0, 0 => rfl
  | 0, j + 1 =>
    exfalso
    have h2 : (".md" : String) = " (" ++ natToDec (2 + j) ++ ").md" := by
      apply suffix_cancel base
      simpa [candAt, String.append_assoc] using h
    have := congrArg String.data h2
    simp [String.data_append] at this
  | i + 1, 0 =>
    exfalso
    have h2 : (" (" ++ natToDec (2 + i) ++ ").md" : String) = ".md" := by
      apply suffix_cancel base
      simpa [candAt, String.append_assoc] using h
    have := congrArg String.data h2
    simp [String.data_append] at this
  | i + 1, j + 1 =>
    have h2 : natToDec (2 + i) ++ ").md" = natToDec (2 + j) ++ ").md" := by
      apply suffix_cancel (base ++ " (")
      simpa [candAt, String.append_assoc] using h
    have hd : (natToDec (2 + i)).data ++ (").md" : String).data =
        (natToDec (2 + j)).data ++ (").md" : String).data := by
      have := congrArg String.data h2
      simpa [String.data_append] using this
    have hlen : ((natToDec (2 + i)).data).length = ((natToDec (2 + j)).data).length := by
      have := congrArg List.length hd
      simp only [List.length_append] at this
      omega
    have := (List.append_inj hd hlen).1
    have hnd : natToDec (2 + i) = natToDec (2 + j) := String.ext this
    have := natToDec_injective hnd
    omega

/-- Pigeonhole: an injective stream of candidates cannot stay inside a
finite list of used names. -/
theorem exists_fresh_cand (used : List String) (f : Nat → String)
    (hf : Function.Injective f) : ∃ i, i ≤ used.length ∧ f i ∉ used := by
  by_contra hall
  push_neg at hall
  have hsub : Finset.image f (Finset.range (used.length + 1)) ⊆ used.toFinset := by
    intro x hx
    rw [Finset.mem_image] at hx
    obtain ⟨i, hi, rfl⟩ := hx
    rw [List.mem_toFinset]
    exact hall i (Nat.lt_succ_iff.mp (Finset.mem_range.mp hi))
  have hcard := Finset.card_le_card hsub
  rw [Finset.card_image_of_injective _ hf, Finset.card_range] at hcard
  have := used.toFinset_card_le
  omega

/-- The stream of candidates examined by `genLoop` from a given state. -/
def genCandStream (base cand : String) (counter : Nat) : Nat → String
  | 0 => cand
  | i + 1 => base ++ " (" ++ natToDec (counter + i) ++ ").md"

theorem genLoop_fresh (base : String) (used : List String) :
    ∀ fuel cand counter,
      (∃ i, i ≤ fuel ∧ genCandStream base cand counter i ∉ used) →
      genLoop base used fuel cand counter ∉ used := by
  intro fuel
  induction fuel with
  | zero =>
    intro cand counter ⟨i, hi, hfree⟩
    have : i = 0 := Nat.le_zero.mp hi
    subst this
    exact hfree
  | succ fuel ih =>
    intro cand counter ⟨i, hi, hfree⟩
    by_cases hmem : cand ∈ used
    · have hi0 : i ≠ 0 := by
        intro h0
        subst h0
        exact hfree hmem
      obtain ⟨i2, rfl⟩ : ∃ i2, i = i2 + 1 := ⟨i - 1, by omega⟩
      simp only [genLoop, if_pos hmem]
      apply ih
      refine ⟨i2, by omega, ?_⟩
      cases i2 with
      | zero => exact hfree
      | succ k =>
        have harr : genCandStream base (base ++ " (" ++ natToDec counter ++ ").md")
            (counter + 1) (k + 1) = genCandStream base cand counter (k + 1 + 1) := by
          simp only [genCandStream]
          have : counter + 1 + k = counter + (k + 1) := by omega
          rw [this]
        rw [harr]
        exact hfree
    · simp only [genLoop, if_neg hmem]
      exact hmem

theorem genCandStream_eq_candAt (base : String) :
    ∀ i, genCandStream base (base ++ ".md") 2 i = candAt base i := by
  intro i
  cases i with
  | zero => rfl
  | succ k => rfl

/-- The filename returned by `generate_filename` is never one of the names
already used (the collision loop's fuel is adequate). -/
theorem generate_filename_fresh (conv : PyVal) (used : List String) (fn : String)
    (h : generate_filename conv used = .ok fn) : fn ∉ used := by
  have hshape : ∃ base, fn = genLoop base used (used.length + 1) (base ++ ".md") 2 := by
    cases conv with
    | dict kvs =>
      simp only [generate_filename, pyGetE, Bind.bind, Except.bind] at h
      cases htitle : pyGetD kvs "title" (.str "Untitled Conversation") with
      | str s =>
        rw [htitle] at h
        simp only [cleanFilenameE, Bind.bind, Except.bind, pure, Except.pure,
          Except.ok.injEq] at h
        exact ⟨_, h.symm⟩
      | none => rw [htitle] at h; exact absurd h (by simp [cleanFilenameE])
      | int n => rw [htitle] at h; exact absurd h (by simp [cleanFilenameE])
      | list xs => rw [htitle] at h; exact absurd h (by simp [cleanFilenameE])
      | dict kvs2 => rw [htitle] at h; exact absurd h (by simp [cleanFilenameE])
    | none => exact absurd h (by simp [generate_filename, pyGetE, Bind.bind, Except.bind])
    | int n => exact absurd h (by simp [generate_filename, pyGetE, Bind.bind, Except.bind])
    | str s => exact absurd h (by simp [generate_filename, pyGetE, Bind.bind, Except.bind])
    | list xs => exact absurd h (by simp [generate_filename, pyGetE, Bind.bind, Except.bind])
  obtain ⟨base, rfl⟩ := hshape
  apply genLoop_fresh
  obtain ⟨i, hi, hfree⟩ := exists_fresh_cand used (candAt base) (candAt_injective base)
  refine ⟨i, by omega, ?_⟩
  rw [genCandStream_eq_candAt]
  exact hfree

theorem renderStep_filename (conv : PyVal) (used : List String) (md fn : String)
    (h : renderStep conv used = .ok (md, fn)) : generate_filename conv used = .ok fn := by
  simp only [renderStep, Bind.bind, Except.bind] at h
  cases h1 : convert_conversation_to_markdown conv with
  | error e => rw [h1] at h; exact absurd h (by simp)
  | ok s =>
    rw [h1] at h
    cases h2 : generate_filename conv used with
    | error e => rw [h2] at h; exact absurd h (by simp [Functor.map, Except.map])
    | ok fn2 =>
      rw [h2] at h
      simp only [Functor.map, Except.map, pure, Except.pure, Except.ok.injEq,
        Prod.mk.injEq] at h
      rw [h.2]

/-- Loop invariant for filename uniqueness: if the filenames recorded so
far are distinct and all tracked in `used`, they stay distinct (every
freshly allocated name avoids `used`). -/
theorem processLoop_names (l : List PyVal) :
    ∀ (seen : List PyVal) (used : List String) (res : ProcResult)
      (out : ProcResult × List PyVal × List String),
      processLoop l seen used res = .ok out →
      (res.files.map (fun f => f.filename)).Nodup →
      (∀ f ∈ res.files, f.filename ∈ used) →
      (out.1.files.map (fun f => f.filename)).Nodup := by
  induction l with
  | nil =>
    intro seen used res out h hnd hsub
    simp only [processLoop, Except.ok.injEq] at h
    rw [← h]
    exact hnd
  | cons conv rest ih =>
    intro seen used res out h hnd hsub
    simp only [processLoop] at h
    by_cases hvalid : (!(pyTruthy conv && conv.isDict)) = true
    · rw [if_pos hvalid] at h
      exact ih _ _ _ _ h hnd hsub
    · rw [if_neg hvalid] at h
      by_cases hid : (!pyTruthy (convId conv)) = true
      · rw [if_pos hid] at h
        exact ih _ _ _ _ h hnd hsub
      · rw [if_neg hid] at h
        cases hmem : pyMemE (convId conv) seen with
        | error e =>
          rw [hmem] at h
          exact absurd h (by simp)
        | ok b =>
          rw [hmem] at h
          cases b with
          | true => exact ih _ _ _ _ h hnd hsub
          | false =>
            cases hrs : renderStep conv used with
            | error e =>
              rw [hrs] at h
              exact ih _ _ _ _ h hnd hsub
            | ok pair =>
              rw [hrs] at h
              obtain ⟨md, fn⟩ := pair
              have hfresh : fn ∉ used :=
                generate_filename_fresh conv used fn (renderStep_filename conv used md fn hrs)
              apply ih _ _ _ _ h
              · rw [List.map_append]
                apply List.Nodup.append hnd (by simp)
                intro x hx hx2
                simp only [List.map_cons, List.map_nil, List.mem_singleton] at hx2
                subst hx2
                obtain ⟨f, hf, rfl⟩ := List.mem_map.mp hx
                exact hfresh (hsub f hf)
              · intro f hf
                rcases List.mem_append.mp hf with hl | hr
                · exact List.mem_append.mpr (Or.inl (hsub f hl))
                · simp only [List.mem_singleton] at hr
                  subst hr
                  simp

/-! ### The sort under integer keys: permutation, sortedness, stability -/

/-- Pure left fold of stable insertion (ghost description of `sortGoE`). -/
def sortGoI (acc : List PyVal) : List PyVal → List PyVal
  | [] => acc
  | x :: xs => sortGoI (insertI x acc) xs

/-- Ghost description of `sortByKeyE` under integer keys. -/
def sortIKey (l : List PyVal) : List PyVal :=
  sortGoI [] l

/-- Non-decreasing in the integer sort key. -/
def SortedKey (l : List PyVal) : Prop :=
  List.Pairwise (fun a b => keyInt a ≤ keyInt b) l

theorem insertI_perm (x : PyVal) (l : List PyVal) : (insertI x l).Perm (x :: l) := by
  induction l with
  | nil => exact List.Perm.refl _
  | cons y ys ih =>
    simp only [insertI]
    by_cases hlt : keyInt x < keyInt y
    · rw [if_pos hlt]
    · rw [if_neg hlt]
      exact List.Perm.trans (List.Perm.cons y ih) (List.Perm.swap x y ys)

theorem sortGoI_perm (l : List PyVal) :
    ∀ acc, (sortGoI acc l).Perm (acc ++ l) := by
  induction l with
  | nil => intro acc; simp [sortGoI]
  | cons x xs ih =>
    intro acc
    simp only [sortGoI]
    have h1 : (sortGoI (insertI x acc) xs).Perm (insertI x acc ++ xs) := ih _
    have h2 : (insertI x acc ++ xs).Perm ((x :: acc) ++ xs) :=
      (insertI_perm x acc).append_right xs
    have h3 : ((x :: acc) ++ xs) = x :: (acc ++ xs) := rfl
    have h4 : (acc ++ x :: xs).Perm (x :: (acc ++ xs)) := List.perm_middle
    exact ((h1.trans h2).trans (by rw [h3])).trans h4.symm

theorem insertI_sorted (x : PyVal) (l : List PyVal) (hs : SortedKey l) :
    SortedKey (insertI x l) := by
  induction l with
  | nil => exact List.pairwise_cons.mpr ⟨by simp, List.Pairwise.nil⟩
  | cons y ys ih =>
    unfold SortedKey at hs ih ⊢
    rw [List.pairwise_cons] at hs
    simp only [insertI]
    by_cases hlt : keyInt x < keyInt y
    · rw [if_pos hlt]
      apply List.pairwise_cons.mpr
      constructor
      · intro z hz
        rcases List.mem_cons.mp hz with rfl | hz2
        · omega
        · have := hs.1 z hz2
          omega
      · exact List.pairwise_cons.mpr hs
    · rw [if_neg hlt]
      apply List.pairwise_cons.mpr
      constructor
      · intro z hz
        have hz3 := (insertI_perm x ys).mem_iff.mp hz
        rcases List.mem_cons.mp hz3 with rfl | hz4
        · omega
        · exact hs.1 z hz4
      · exact ih hs.2

theorem sortGoI_sorted (l : List PyVal) :
    ∀ acc, SortedKey acc → SortedKey (sortGoI acc l) := by
  induction l with
  | nil => intro acc h; exact h
  | cons x xs ih =>
    intro acc h
    exact ih _ (insertI_sorted x acc h)

theorem insertI_filter (v : Int) (x : PyVal) (l : List PyVal) (hs : SortedKey l) :
    (insertI x l).filter (fun c => decide (keyInt c = v)) =
      (if keyInt x = v then l.filter (fun c => decide (keyInt c = v)) ++ [x]
       else l.filter (fun c => decide (keyInt c = v))) := by
  induction l with
  | nil =>
    by_cases hx : keyInt x = v
    · simp [insertI, List.filter, hx]
    · simp [insertI, List.filter, hx]
  | cons y ys ih =>
    unfold SortedKey at hs ih
    rw [List.pairwise_cons] at hs
    simp only [insertI]
    by_cases hlt : keyInt x < keyInt y
    · rw [if_pos hlt]
      by_cases hx : keyInt x = v
      · have hnil : (y :: ys).filter (fun c => decide (keyInt c = v)) = [] := by
          apply List.filter_eq_nil_iff.mpr
          intro z hz
          have hyz : keyInt y ≤ keyInt z := by
            rcases List.mem_cons.mp hz with rfl | hz2
            · omega
            · exact hs.1 z hz2
          simp only [decide_eq_true_eq]
          omega
        rw [hnil]
        have : (x :: y :: ys).filter (fun c => decide (keyInt c = v)) =
            x :: ((y :: ys).filter (fun c => decide (keyInt c = v))) := by
          simp [List.filter, hx]
        rw [this, hnil, if_pos hx]
        simp
      · have : (x :: y :: ys).filter (fun c => decide (keyInt c = v)) =
            (y :: ys).filter (fun c => decide (keyInt c = v)) := by
          simp [List.filter, hx]
        rw [this, if_neg hx]
    · rw [if_neg hlt]
      have ihs := ih hs.2
      by_cases hy : keyInt y = v
      · have h1 : (y :: insertI x ys).filter (fun c => decide (keyInt c = v)) =
            y :: ((insertI x ys).filter (fun c => decide (keyInt c = v))) := by
          simp [List.filter, hy]
        have h2 : (y :: ys).filter (fun c => decide (keyInt c = v)) =
            y :: (ys.filter (fun c => decide (keyInt c = v))) := by
          simp [List.filter, hy]
        rw [h1, h2, ihs]
        by_cases hx : keyInt x = v
        · rw [if_pos hx, if_pos hx]
          simp
        · rw [if_neg hx, if_neg hx]
      · have h1 : (y :: insertI x ys).filter (fun c => decide (keyInt c = v)) =
            (insertI x ys).filter (fun c => decide (keyInt c = v)) := by
          simp [List.filter, hy]
        have h2 : (y :: ys).filter (fun c => decide (keyInt c = v)) =
            ys.filter (fun c => decide (keyInt c = v)) := by
          simp [List.filter, hy]
        rw [h1, h2, ihs]

theorem sortGoI_filter (v : Int) (l : List PyVal) :
    ∀ acc, SortedKey acc →
      (sortGoI acc l).filter (fun c => decide (keyInt c = v)) =
        acc.filter (fun c => decide (keyInt c = v)) ++
          l.filter (fun c => decide (keyInt c = v)) := by
  induction l with
  | nil => intro acc h; simp [sortGoI]
  | cons x xs ih =>
    intro acc h
    simp only [sortGoI]
    rw [ih _ (insertI_sorted x acc h), insertI_filter v x acc h]
    by_cases hx : keyInt x = v
    · rw [if_pos hx]
      have : (x :: xs).filter (fun c => decide (keyInt c = v)) =
          x :: (xs.filter (fun c => decide (keyInt c = v))) := by
        simp [List.filter, hx]
      rw [this, List.append_assoc]
      rfl
    · rw [if_neg hx]
      have : (x :: xs).filter (fun c => decide (keyInt c = v)) =
          xs.filter (fun c => decide (keyInt c = v)) := by
        simp [List.filter, hx]
      rw [this]

/-- Under integer keys the effectful insertion never raises and agrees
with the pure stable insertion. -/
theorem insertByKeyE_int (x : PyVal) (hx : intKeyed x) :
    ∀ acc, (∀ y ∈ acc, intKeyed y) → insertByKeyE x acc = .ok (insertI x acc) := by
  intro acc
  induction acc with
  | nil => intro _; rfl
  | cons y ys ih =>
    intro hall
    have hy : intKeyed y := hall y (by simp)
    simp only [insertByKeyE, insertI]
    rw [show createKey x = .int (keyInt x) from hx, show createKey y = .int (keyInt y) from hy]
    simp only [pyLtE]
    by_cases hlt : keyInt x < keyInt y
    · rw [decide_eq_true hlt, if_pos hlt]
    · rw [decide_eq_false hlt, if_neg hlt,
        ih (fun z hz => hall z (List.mem_cons_of_mem y hz))]

/-- Under integer keys the effectful sort never raises and agrees with the
pure stable insertion sort. -/
theorem sortGoE_int (l : List PyVal) :
    ∀ acc, (∀ y ∈ acc, intKeyed y) → (∀ y ∈ l, intKeyed y) →
      sortGoE acc l = .ok (sortGoI acc l) := by
  induction l with
  | nil => intro acc _ _; rfl
  | cons x xs ih =>
    intro acc hacc hl
    have hx : intKeyed x := hl x (by simp)
    simp only [sortGoE, sortGoI]
    rw [insertByKeyE_int x hx acc hacc]
    apply ih
    · intro y hy
      have := (insertI_perm x acc).mem_iff.mp hy
      rcases List.mem_cons.mp this with rfl | h2
      · exact hx
      · exact hacc y h2
    · intro y hy
      exact hl y (by simp [hy])

theorem sortByKeyE_int (l : List PyVal) (hl : ∀ y ∈ l, intKeyed y) :
    sortByKeyE l = .ok (sortIKey l) :=
  sortGoE_int l [] (by simp) hl

/-! ### Relating the loop to its ghost pair list -/

theorem pyMemE_ok (v : PyVal) (l : List PyVal) (b : Bool)
    (h : pyMemE v l = .ok b) : pyHashable v = true ∧ b = pyMemAtom v l := by
  by_cases hh : pyHashable v = true
  · rw [pyMemE, if_pos hh] at h
    simp only [Except.ok.injEq] at h
    exact ⟨hh, h.symm⟩
  · rw [pyMemE, if_neg hh] at h
    exact absurd h (by simp)

/-- The files accumulated by `processLoop` are exactly the second
components of the ghost pair list. -/
theorem processLoop_files (l : List PyVal) :
    ∀ (seen : List PyVal) (used : List String) (res : ProcResult)
      (out : ProcResult × List PyVal × List String),
      processLoop l seen used res = .ok out →
      out.1.files = res.files ++ (processPairs l seen used).map Prod.snd := by
  induction l with
  | nil =>
    intro seen used res out h
    simp only [processLoop, Except.ok.injEq] at h
    rw [← h]
    simp [processPairs]
  | cons conv rest ih =>
    intro seen used res out h
    simp only [processLoop] at h
    simp only [processPairs]
    by_cases hvalid : (!(pyTruthy conv && conv.isDict)) = true
    · rw [if_pos hvalid] at h
      rw [if_pos hvalid]
      rw [ih _ _ _ _ h]
    · rw [if_neg hvalid] at h
      rw [if_neg hvalid]
      by_cases hid : (!pyTruthy (convId conv)) = true
      · rw [if_pos hid] at h
        rw [if_pos hid]
        rw [ih _ _ _ _ h]
      · rw [if_neg hid] at h
        rw [if_neg hid]
        cases hmem : pyMemE (convId conv) seen with
        | error e =>
          rw [hmem] at h
          exact absurd h (by simp)
        | ok b =>
          rw [hmem] at h
          obtain ⟨hhash, hb⟩ := pyMemE_ok _ _ _ hmem
          rw [if_neg (by rw [hhash]; simp)]
          cases b with
          | true =>
            rw [if_pos hb.symm]
            rw [ih _ _ _ _ h]
          | false =>
            rw [if_neg (by rw [← hb]; simp)]
            cases hrs : renderStep conv used with
            | error e =>
              rw [hrs] at h
              rw [ih _ _ _ _ h]
            | ok pair =>
              rw [hrs] at h
              obtain ⟨md, fn⟩ := pair
              rw [ih _ _ _ _ h]
              simp

/-- The conversations that produced files form a sublist of the loop's
input (files are emitted in input order). -/
theorem processPairs_fst_sublist (l : List PyVal) :
    ∀ (seen : List PyVal) (used : List String),
      ((processPairs l seen used).map Prod.fst).Sublist l := by
  induction l with
  | nil => intro seen used; simp [processPairs]
  | cons conv rest ih =>
    intro seen used
    simp only [processPairs]
    by_cases hvalid : (!(pyTruthy conv && conv.isDict)) = true
    · rw [if_pos hvalid]
      exact (ih seen used).cons conv
    · rw [if_neg hvalid]
      by_cases hid : (!pyTruthy (convId conv)) = true
      · rw [if_pos hid]
        exact (ih seen used).cons conv
      · rw [if_neg hid]
        by_cases hhash : (!pyHashable (convId conv)) = true
        · rw [if_pos hhash]
          simp
        · rw [if_neg hhash]
          by_cases hseen : pyMemAtom (convId conv) seen = true
          · rw [if_pos hseen]
            exact (ih seen used).cons conv
          · rw [if_neg hseen]
            cases hrs : renderStep conv used with
            | error e =>
              exact (ih seen used).cons conv
            | ok pair =>
              obtain ⟨md, fn⟩ := pair
              exact List.Sublist.cons₂ conv (ih _ _)

/-! ### Loop lemmas for a fully-seen second run and for totality -/

/-- When every valid id-bearing entry of the remaining list is already in
the seen set, the loop only counts: no file is produced, nothing is
processed, each id-bearing entry is skipped and each valid entry without
an id is counted as an error; the seen set and used names are unchanged. -/
theorem processLoop_all_seen (l : List PyVal) :
    ∀ (seen : List PyVal) (used : List String) (res : ProcResult),
      (∀ conv ∈ l, (pyTruthy conv && conv.isDict) = true) →
      (∀ conv ∈ l, pyTruthy (convId conv) = true →
        pyHashable (convId conv) = true ∧ pyMemAtom (convId conv) seen = true) →
      processLoop l seen used res = .ok
        (ProcResult.mk res.processed
          (res.skipped + l.countP (fun c => pyTruthy (convId c)))
          (res.errors + l.countP (fun c => !pyTruthy (convId c)))
          res.files, seen, used) := by
  induction l with
  | nil =>
    intro seen used res _ _
    simp [processLoop, List.countP_nil]
  | cons conv rest ih =>
    intro seen used res hvalid hseen
    have hv := hvalid conv (by simp)
    simp only [processLoop]
    rw [if_neg (by rw [hv]; simp)]
    by_cases hid : pyTruthy (convId conv) = true
    · rw [if_neg (by rw [hid]; simp)]
      obtain ⟨hhash, hmem⟩ := hseen conv (by simp) hid
      rw [show pyMemE (convId conv) seen = .ok true by rw [pyMemE, if_pos hhash, hmem]]
      rw [ih seen used _ (fun c hc => hvalid c (by simp [hc]))
        (fun c hc hc2 => hseen c (by simp [hc]) hc2)]
      have hc1 : List.countP (fun c => pyTruthy (convId c)) (conv :: rest)
          = List.countP (fun c => pyTruthy (convId c)) rest + 1 := by
        rw [List.countP_cons]; simp [hid]
      have hc2 : List.countP (fun c => !pyTruthy (convId c)) (conv :: rest)
          = List.countP (fun c => !pyTruthy (convId c)) rest := by
        rw [List.countP_cons]; simp [hid]
      rw [hc1, hc2]
      simp only [Except.ok.injEq, Prod.mk.injEq, ProcResult.mk.injEq, true_and, and_true]
      omega
    · rw [if_pos (by simp at hid ⊢; exact hid)]
      rw [ih seen used _ (fun c hc => hvalid c (by simp [hc]))
        (fun c hc hc2 => hseen c (by simp [hc]) hc2)]
      have hid2 : pyTruthy (convId conv) = false := by
        simpa using hid
      have hc1 : List.countP (fun c => pyTruthy (convId c)) (conv :: rest)
          = List.countP (fun c => pyTruthy (convId c)) rest := by
        rw [List.countP_cons]; simp [hid2]
      have hc2 : List.countP (fun c => !pyTruthy (convId c)) (conv :: rest)
          = List.countP (fun c => !pyTruthy (convId c)) rest + 1 := by
        rw [List.countP_cons]; simp [hid2]
      rw [hc1, hc2]
      simp only [Except.ok.injEq, Prod.mk.injEq, ProcResult.mk.injEq, true_and, and_true]
      omega

/-- The loop never raises when every valid id-bearing entry carries a
hashable id (the only uncaught operation is the seen-set membership
test). -/
theorem processLoop_total (l : List PyVal) :
    ∀ (seen : List PyVal) (used : List String) (res : ProcResult),
      (∀ conv ∈ l, pyTruthy (convId conv) = true → pyHashable (convId conv) = true) →
      ∃ out, processLoop l seen used res = .ok out := by
  induction l with
  | nil =>
    intro seen used res _
    exact ⟨_, rfl⟩
  | cons conv rest ih =>
    intro seen used res hids
    have hrest : ∀ conv ∈ rest, pyTruthy (convId conv) = true →
        pyHashable (convId conv) = true :=
      fun c hc => hids c (by simp [hc])
    simp only [processLoop]
    by_cases hvalid : (!(pyTruthy conv && conv.isDict)) = true
    · rw [if_pos hvalid]
      exact ih _ _ _ hrest
    · rw [if_neg hvalid]
      by_cases hid : (!pyTruthy (convId conv)) = true
      · rw [if_pos hid]
        exact ih _ _ _ hrest
      · rw [if_neg hid]
        have hhash : pyHashable (convId conv) = true :=
          hids conv (by simp) (by simpa using hid)
        rw [show pyMemE (convId conv) seen = .ok (pyMemAtom (convId conv) seen) by
          rw [pyMemE, if_pos hhash]]
        by_cases hseen : pyMemAtom (convId conv) seen = true
        · rw [hseen]
          exact ih _ _ _ hrest
        · rw [show pyMemAtom (convId conv) seen = false by simpa using hseen]
          cases hrs : renderStep conv used with
          | error e => exact ih _ _ _ hrest
          | ok pair =>
            obtain ⟨md, fn⟩ := pair
            exact ih _ _ _ hrest

/-! ### Termination of the traversal loop: the fuel is adequate -/

/-- Number of mapping keys not yet visited (the decreasing measure of the
`while` loop of `extract_messages`). -/
def freshCount (kvs : List (String × PyVal)) (visited : List PyVal) : Nat :=
  (((kvs.map Prod.fst).dedup).filter (fun k => !pyMemAtom (.str k) visited)).length

/-- Remaining loop steps chargeable to the current node value. -/
def walkCost (kvs : List (String × PyVal)) : PyVal → Nat
  | .str s => if (kvs.lookup s).isSome then 3 else 2
  | v => if pyTruthy v then 2 else 1

theorem walkCost_pos (kvs : List (String × PyVal)) (v : PyVal) : 1 ≤ walkCost kvs v := by
  cases v <;> simp [walkCost] <;> split <;> omega

theorem walkCost_le (kvs : List (String × PyVal)) (v : PyVal) : walkCost kvs v ≤ 3 := by
  cases v <;> simp [walkCost] <;> split <;> omega

theorem lookup_isSome_mem_keys (kvs : List (String × PyVal)) (s : String)
    (h : (kvs.lookup s).isSome) : s ∈ kvs.map Prod.fst := by
  induction kvs with
  | nil => simp [List.lookup] at h
  | cons p rest ih =>
    obtain ⟨k, v⟩ := p
    rw [List.lookup_cons] at h
    by_cases hk : (s == k) = true
    · simp only [List.map_cons, List.mem_cons]
      exact Or.inl (by simpa using hk)
    · rw [Bool.eq_false_iff.mpr hk] at h
      simp only [List.map_cons, List.mem_cons]
      exact Or.inr (ih h)

theorem freshCount_mono (kvs : List (String × PyVal)) (v : PyVal) (visited : List PyVal) :
    freshCount kvs (v :: visited) ≤ freshCount kvs visited := by
  apply List.Sublist.length_le
  apply List.monotone_filter_right
  intro k hk
  simp only [pyMemAtom, List.any_cons, Bool.not_or, Bool.and_eq_true] at hk ⊢
  exact hk.2

theorem filter_length_lt_of_witness {α : Type} (p q : α → Bool) (l : List α)
    (hpq : ∀ a, q a = true → p a = true) (x : α) (hx : x ∈ l)
    (hpx : p x = true) (hqx : q x = false) :
    (l.filter q).length < (l.filter p).length := by
  induction l with
  | nil => cases hx
  | cons a rest ih =>
    have hle : (rest.filter q).length ≤ (rest.filter p).length :=
      (List.monotone_filter_right rest hpq).length_le
    rw [List.filter_cons, List.filter_cons]
    rcases List.mem_cons.mp hx with rfl | hx2
    · rw [if_pos hpx, if_neg (by simp [hqx])]
      simp only [List.length_cons]
      omega
    · have hlt := ih hx2
      by_cases hqa : q a = true
      · rw [if_pos hqa, if_pos (hpq a hqa)]
        simp only [List.length_cons]
        omega
      · rw [if_neg hqa]
        by_cases hpa : p a = true
        · rw [if_pos hpa]
          simp only [List.length_cons]
          omega
        · rw [if_neg hpa]
          omega

theorem freshCount_strict (kvs : List (String × PyVal)) (s : String) (visited : List PyVal)
    (hkey : (kvs.lookup s).isSome) (hnv : pyMemAtom (.str s) visited = false) :
    freshCount kvs (.str s :: visited) < freshCount kvs visited := by
  apply filter_length_lt_of_witness
  · intro k hk
    simp only [pyMemAtom, List.any_cons, Bool.not_or, Bool.and_eq_true] at hk ⊢
    exact hk.2
  · exact List.mem_dedup.mpr (lookup_isSome_mem_keys kvs s hkey)
  · simpa using hnv
  · simp [pyMemAtom, pyEqAtom]

/-- Adequacy of the traversal fuel: with at least
`2 * freshCount + walkCost` steps the loop reaches its exit condition
(this is the termination argument for the source's `while` loop, valid
for arbitrary — in particular cyclic — mappings). -/
theorem walkF_adequate (kvs : List (String × PyVal)) :
    ∀ (fuel : Nat) (cur : PyVal) (visited : List PyVal),
      2 * freshCount kvs visited + walkCost kvs cur ≤ fuel →
      walkF kvs fuel cur visited ≠ Option.none := by
  intro fuel
  induction fuel with
  | zero =>
    intro cur visited hle
    have := walkCost_pos kvs cur
    omega
  | succ fuel ih =>
    intro cur visited hle
    rw [walkF]
    by_cases ht : (!pyTruthy cur) = true
    · rw [if_pos ht]; simp
    · rw [if_neg ht]
      by_cases hh : (!pyHashable cur) = true
      · rw [if_pos hh]; simp
      · rw [if_neg hh]
        by_cases hv : pyMemAtom cur visited = true
        · rw [if_pos hv]; simp
        · rw [if_neg hv]
          cases hns : nodeStep (walkNode kvs cur) with
          | error e => simp
          | ok pr =>
            obtain ⟨mOpt, next⟩ := pr
            have hrec : walkF kvs fuel next (cur :: visited) ≠ Option.none := by
              apply ih
              by_cases hstr : ∃ s, cur = .str s ∧ (kvs.lookup s).isSome
              · obtain ⟨s, rfl, hkey⟩ := hstr
                have hcost : walkCost kvs (.str s) = 3 := by
                  simp [walkCost, hkey]
                have hdec := freshCount_strict kvs s visited hkey (by simpa using hv)
                have hnle := walkCost_le kvs next
                omega
              · have hnode : walkNode kvs cur = PyVal.dict [] := by
                  cases cur with
                  | str s =>
                    have : ¬ (kvs.lookup s).isSome := by
                      intro hks
                      exact hstr ⟨s, rfl, hks⟩
                    simp only [walkNode, pyGetD]
                    rw [Option.not_isSome_iff_eq_none.mp this]
                    rfl
                  | none => rfl
                  | int n => rfl
                  | list xs => rfl
                  | dict kvs2 => rfl
                rw [hnode] at hns
                have hstep : nodeStep (PyVal.dict []) = .ok (Option.none, PyVal.none) := rfl
                rw [hstep] at hns
                simp only [Except.ok.injEq, Prod.mk.injEq] at hns
                rw [← hns.2]
                have hmono := freshCount_mono kvs cur visited
                have hcost2 : walkCost kvs cur ≥ 2 := by
                  cases cur with
                  | str s =>
                    simp only [walkCost]
                    split <;> omega
                  | none => simp [pyTruthy] at ht
                  | int n =>
                    simp only [walkCost]
                    rw [if_pos (by simpa using ht)]
                  | list xs =>
                    simp only [walkCost]
                    rw [if_pos (by simpa using ht)]
                  | dict kvs2 =>
                    simp only [walkCost]
                    rw [if_pos (by simpa using ht)]
                have : walkCost kvs PyVal.none = 1 := rfl
                omega
            show (match walkF kvs fuel next (cur :: visited) with
                | Option.none => Option.none
                | some (Except.error e) => some (Except.error e)
                | some (Except.ok ms) => some (Except.ok (mOpt.toList ++ ms))) ≠ Option.none
            cases hw : walkF kvs fuel next (cur :: visited) with
            | none => exact absurd hw hrec
            | some r => cases r <;> simp

/-! ### Properties of the filename sanitizer -/

theorem collapseGo_mem (l : List Char) :
    ∀ (b : Bool) (c : Char), c ∈ collapseGo b l → c = ' ' ∨ (c ∈ l ∧ pyIsSpace c = false) := by
  induction l with
  | nil => intro b c h; cases h
  | cons a rest ih =>
    intro b c h
    simp only [collapseGo] at h
    by_cases ha : pyIsSpace a = true
    · rw [if_pos ha] at h
      cases b with
      | true =>
        rcases ih true c h with h1 | h2
        · exact Or.inl h1
        · exact Or.inr ⟨List.mem_cons_of_mem a h2.1, h2.2⟩
      | false =>
        rcases List.mem_cons.mp h with rfl | h2
        · exact Or.inl rfl
        · rcases ih true c h2 with h1 | h3
          · exact Or.inl h1
          · exact Or.inr ⟨List.mem_cons_of_mem a h3.1, h3.2⟩
    · rw [if_neg ha] at h
      rcases List.mem_cons.mp h with rfl | h2
      · exact Or.inr ⟨List.mem_cons_self _ _, by simpa using ha⟩
      · rcases ih false c h2 with h1 | h3
        · exact Or.inl h1
        · exact Or.inr ⟨List.mem_cons_of_mem a h3.1, h3.2⟩

theorem collapseGo_head_true (l : List Char) :
    ∀ c, (collapseGo true l).head? = some c → pyIsSpace c = false := by
  induction l with
  | nil => intro c h; cases h
  | cons a rest ih =>
    intro c h
    simp only [collapseGo] at h
    by_cases ha : pyIsSpace a = true
    · rw [if_pos ha] at h
      exact ih c h
    · rw [if_neg ha] at h
      simp only [List.head?_cons, Option.some.injEq] at h
      rw [← h]
      simpa using ha

theorem collapseGo_chain (l : List Char) :
    ∀ b, List.Chain' (fun a c => ¬(pyIsSpace a = true ∧ pyIsSpace c = true)) (collapseGo b l) := by
  induction l with
  | nil => intro b; simp [collapseGo]
  | cons a rest ih =>
    intro b
    simp only [collapseGo]
    by_cases ha : pyIsSpace a = true
    · rw [if_pos ha]
      cases b with
      | true => exact ih true
      | false =>
        apply List.chain'_cons'.mpr
        refine ⟨?_, ih true⟩
        intro y hy
        have := collapseGo_head_true rest y hy
        intro hcon
        rw [this] at hcon
        exact absurd hcon.2 (by simp)
    · rw [if_neg ha]
      apply List.chain'_cons'.mpr
      refine ⟨?_, ih false⟩
      intro y _
      intro hcon
      exact absurd hcon.1 (by simpa using ha)

theorem dropWhile_head_false {p : Char → Bool} (l : List Char) :
    ∀ c, (l.dropWhile p).head? = some c → p c = false := by
  induction l with
  | nil => intro c h; cases h
  | cons a rest ih =>
    intro c h
    rw [List.dropWhile_cons] at h
    by_cases ha : p a = true
    · rw [if_pos ha] at h
      exact ih c h
    · rw [if_neg ha] at h
      simp only [List.head?_cons, Option.some.injEq] at h
      rw [← h]
      simpa using ha

theorem trimWs_within (l : List Char) : (trimWs l).IsInfix l := by
  unfold trimWs
  have h1 : (l.dropWhile pyIsSpace).IsSuffix l := List.dropWhile_suffix pyIsSpace
  have h2 : (((l.dropWhile pyIsSpace).reverse.dropWhile pyIsSpace).reverse).IsPrefix
      (l.dropWhile pyIsSpace) := by
    have h3 := List.dropWhile_suffix (l := (l.dropWhile pyIsSpace).reverse) pyIsSpace
    simpa using List.reverse_prefix.mpr h3
  exact h2.isInfix.trans h1.isInfix

theorem isPrefix_head {α : Type} {l1 l2 : List α} (h : l1.IsPrefix l2) :
    ∀ c, l1.head? = some c → l2.head? = some c := by
  intro c hc
  obtain ⟨t, rfl⟩ := h
  cases l1 with
  | nil => cases hc
  | cons a r =>
    simp only [List.head?_cons, Option.some.injEq] at hc
    simp [hc]

theorem trimWs_head (l : List Char) :
    ∀ c, (trimWs l).head? = some c → pyIsSpace c = false := by
  intro c hc
  unfold trimWs at hc
  have h2 : (((l.dropWhile pyIsSpace).reverse.dropWhile pyIsSpace).reverse).IsPrefix
      (l.dropWhile pyIsSpace) := by
    have h3 := List.dropWhile_suffix (l := (l.dropWhile pyIsSpace).reverse) pyIsSpace
    simpa using List.reverse_prefix.mpr h3
  exact dropWhile_head_false l c (isPrefix_head h2 c hc)

theorem allowed_not_illegal (c : Char)
    (h : (pyIsWord c || c = ' ' || c = '.' || c = '-') = true) :
    isIllegalFsChar c = false := by
  by_contra hIll
  rw [Bool.not_eq_false] at hIll
  simp only [isIllegalFsChar, Bool.or_eq_true, decide_eq_true_eq] at hIll
  rcases hIll with ((((((((rfl | rfl) | rfl) | rfl) | rfl) | rfl) | rfl) | rfl) | rfl) <;>
    exact absurd h (by decide)

set_option maxRecDepth 16000

/-! ### Concrete fixtures used by the claims -/

/-- Two conversations sharing the title "Tips" with empty mappings. -/
def tipsConv1 : PyVal :=
  .dict [("id", .str "t1"), ("title", .str "Tips"), ("mapping", .dict [])]

/-- Second conversation titled "Tips". -/
def tipsConv2 : PyVal :=
  .dict [("id", .str "t2"), ("title", .str "Tips"), ("mapping", .dict [])]

/-- Rendered document of an empty conversation at the epoch. -/
def emptyEpochContent : String := "**Created:** 1970-01-01, 00:00:00\n\n---\n"

/-- Conversation with the latest timestamp, listed first. -/
def convNewest : PyVal :=
  .dict [("id", .str "newest"), ("create_time", .int 25), ("mapping", .dict [])]

/-- Conversation with the earliest timestamp. -/
def convOldest : PyVal :=
  .dict [("id", .str "oldest"), ("create_time", .int 20), ("mapping", .dict [])]

/-- Conversation with the middle timestamp. -/
def convMiddle : PyVal :=
  .dict [("id", .str "middle"), ("create_time", .int 22), ("mapping", .dict [])]

/-- The message tree of the test-suite sample conversation. -/
def sampleMapping : PyVal := .dict [
  ("msg_001", .dict [
    ("message", .dict [
      ("author", .dict [("role", .str "user")]),
      ("content", .dict [("parts", .list [.str "What are Python best practices?"])])]),
    ("children", .list [.str "msg_002"]),
    ("parent", .none)]),
  ("msg_002", .dict [
    ("message", .dict [
      ("author", .dict [("role", .str "assistant")]),
      ("content", .dict [("parts", .list [.str "Here are key Python best practices: 1. Follow PEP 8..."])])]),
    ("children", .list []),
    ("parent", .str "msg_001")])]

/-- The test-suite sample conversation (title "Python Best Practices"). -/
def sampleConv : PyVal := .dict [
  ("id", .str "test_conv_001"),
  ("title", .str "Python Best Practices"),
  ("create_time", .int 1703522622),
  ("mapping", sampleMapping)]

/-- The document the renderer produces for `sampleConv`. -/
def sampleRendered : String :=
  "**Created:** 2023-12-25, 16:43:42\n\n---\n\n**🧑‍💬 User**\n\n> What are Python best practices?\n\n**🤖 Assistant**\n\n> Here are key Python best practices: 1. Follow PEP 8...\n"

/-- A two-node cyclic mapping: node A's first child is B and B's first
child is A. -/
def cycMapping : PyVal := .dict [
  ("A", .dict [
    ("message", .dict [
      ("author", .dict [("role", .str "user")]),
      ("content", .dict [("parts", .list [.str "Hi"])])]),
    ("parent", .none),
    ("children", .list [.str "B"])]),
  ("B", .dict [
    ("message", .dict [
      ("author", .dict [("role", .str "assistant")]),
      ("content", .dict [("parts", .list [.str "Yo"])])]),
    ("parent", .str "A"),
    ("children", .list [.str "A"])])]

/-- A conversation whose `title` field is absent. -/
def noTitleConv : PyVal := .dict [("id", .str "c9"), ("mapping", .dict [])]

/-- Entry whose `create_time` is the string "x". -/
def mixedKeyA : PyVal := .dict [("id", .str "a"), ("create_time", .str "x")]

/-- Entry whose `create_time` is the integer 2. -/
def mixedKeyB : PyVal := .dict [("id", .str "b"), ("create_time", .int 2)]

/-- The files produced for the newest/oldest/middle trio, in output order. -/
def trioFiles : List FileData := [
  FileData.mk "Untitled Conversation.md" "**Created:** 1970-01-01, 00:00:20\n\n---\n"
    (.str "Untitled") (.str "oldest"),
  FileData.mk "Untitled Conversation (2).md" "**Created:** 1970-01-01, 00:00:22\n\n---\n"
    (.str "Untitled") (.str "middle"),
  FileData.mk "Untitled Conversation (3).md" "**Created:** 1970-01-01, 00:00:25\n\n---\n"
    (.str "Untitled") (.str "newest")]

/-! ### The claims -/

/-- C1: the claim states that every absent (None) or non-dict entry, and
every dict entry lacking an `id`, increments the error count by one, so
that N None entries give an error count of N.  The code contradicts
this for None/non-dict (and empty-dict) entries: the comprehension at
source line 258 silently filters them out before the loop, so the
in-loop branch at lines 267-271 that would count them (and print a
warning) is unreachable and the error count stays 0.  Only a truthy
dict entry without a truthy `id` is counted.  This theorem evaluates
the batch processor at the failing inputs. -/
theorem claim_C1_invalid_entries_uncounted :
    process_conversations [PyVal.none] [] = .ok (ProcResult.mk 0 0 0 [], []) ∧
    process_conversations [PyVal.none, PyVal.none] [] = .ok (ProcResult.mk 0 0 0 [], []) ∧
    process_conversations [PyVal.dict [("title", PyVal.str "No ID")]] [] =
      .ok (ProcResult.mk 0 0 1 [], []) :=
  ⟨rfl, rfl, rfl⟩

/-- C2: within one call to the batch processor the filenames of the
returned records are pairwise distinct, and the collision loop appends a
parenthesized counter starting at 2: two conversations titled "Tips"
yield "Tips.md" then "Tips (2).md". -/
theorem claim_C2_filenames_unique :
    (∀ (conversations processed_ids : List PyVal) (out : ProcResult × List PyVal),
      process_conversations conversations processed_ids = .ok out →
      (out.1.files.map (fun f => f.filename)).Nodup) ∧
    process_conversations [tipsConv1, tipsConv2] [] =
      .ok (ProcResult.mk 2 0 0
        [FileData.mk "Tips.md" emptyEpochContent (.str "Tips") (.str "t1"),
         FileData.mk "Tips (2).md" emptyEpochContent (.str "Tips") (.str "t2")],
        [.str "t2", .str "t1"]) := by
  constructor
  · intro conversations processed_ids out h
    unfold process_conversations at h
    cases hs : sortByKeyE (validOf conversations) with
    | error e => rw [hs] at h; exact absurd h (by simp)
    | ok sorted =>
      rw [hs] at h
      replace h : (match processLoop sorted processed_ids [] (ProcResult.mk 0 0 0 []) with
          | Except.error e => Except.error e
          | Except.ok out0 => Except.ok (out0.1, out0.2.1)) = Except.ok out := h
      cases hl : processLoop sorted processed_ids [] (ProcResult.mk 0 0 0 []) with
      | error e => rw [hl] at h; exact absurd h (by simp)
      | ok out2 =>
        rw [hl] at h
        simp only [Except.ok.injEq] at h
        rw [← h]
        exact processLoop_names sorted _ _ _ _ hl (by simp) (by simp)
  · rfl

/-- Witness for C2 at the concrete "Tips" scenario. -/
theorem claim_C2_witness :
    ((ProcResult.mk 2 0 0
      [FileData.mk "Tips.md" emptyEpochContent (.str "Tips") (.str "t1"),
       FileData.mk "Tips (2).md" emptyEpochContent (.str "Tips") (.str "t2")]).files.map
      (fun f => f.filename)).Nodup :=
  claim_C2_filenames_unique.1 [tipsConv1, tipsConv2] [] _ rfl

/-- C5: the tree walker terminates on every mapping, including cyclic
ones: the traversal loop with the fuel used by `extract_messages` always
reaches its exit condition (first conjunct, via the visited-id set), and
on the two-node cycle A→B→A it stops and returns exactly the two
messages. -/
theorem claim_C5_walker_terminates :
    (∀ (kvs : List (String × PyVal)) (cur : PyVal) (visited : List PyVal),
      walkF kvs (walkFuel kvs) cur visited ≠ Option.none) ∧
    extract_messages cycMapping =
      .ok [Msg.mk (.str "user") "Hi", Msg.mk (.str "assistant") "Yo"] := by
  constructor
  · intro kvs cur visited
    apply walkF_adequate
    have h1 : freshCount kvs visited ≤ kvs.length := by
      unfold freshCount
      calc (((kvs.map Prod.fst).dedup).filter (fun k => !pyMemAtom (.str k) visited)).length
          ≤ ((kvs.map Prod.fst).dedup).length := (List.filter_sublist _).length_le
      _ ≤ (kvs.map Prod.fst).length := (List.dedup_sublist _).length_le
      _ = kvs.length := List.length_map _ _
    have h2 := walkCost_le kvs cur
    unfold walkFuel
    omega
  · rfl

/-- Witness for C5: the fuel suffices on the cyclic mapping itself. -/
theorem claim_C5_witness :
    walkF [("A", PyVal.dict [("children", PyVal.list [PyVal.str "B"])]),
        ("B", PyVal.dict [("children", PyVal.list [PyVal.str "A"])])]
      (walkFuel [("A", PyVal.dict [("children", PyVal.list [PyVal.str "B"])]),
        ("B", PyVal.dict [("children", PyVal.list [PyVal.str "A"])])])
      (PyVal.str "A") [] ≠ Option.none :=
  claim_C5_walker_terminates.1 _ _ _

/-- C6: the claim states that every rendered document begins with a line
identifying the conversation by its title before the bold Created line.
The code renders no title line at all: the document for the test-suite
sample conversation begins directly with the Created line, the
horizontal rule and a blank line, and contains neither the title
"Python Best Practices" nor any heading marker, although the repo's own
test asserts `'# Python Best Practices' in markdown`. -/
theorem claim_C6_header_missing_title :
    convert_conversation_to_markdown sampleConv = .ok sampleRendered ∧
    sampleRendered.data.take 40 = "**Created:** 2023-12-25, 16:43:42\n\n---\n\n".data ∧
    containsSub "Python Best Practices".data sampleRendered.data = false ∧
    containsSub "#".data sampleRendered.data = false :=
  ⟨rfl, rfl, rfl, rfl⟩

/-- Unfolds `process_conversations` given results for its two stages. -/
theorem process_conversations_eq (conversations processed_ids : List PyVal)
    (sorted : List PyVal) (hs : sortByKeyE (validOf conversations) = .ok sorted)
    (out : ProcResult × List PyVal × List String)
    (hl : processLoop sorted processed_ids [] (ProcResult.mk 0 0 0 []) = .ok out) :
    process_conversations conversations processed_ids = .ok (out.1, out.2.1) := by
  unfold process_conversations
  simp only [hs, hl]

/-- C3: for input lists whose valid entries carry integer `create_time`
values (a missing value defaulting to 0, per the data model), the
returned `files` sequence is produced, in order, from a subsequence of
the stable ascending sort of the valid entries: the pair list is
non-decreasing in the sort key, the sorted list itself is non-decreasing,
and entries with equal timestamps keep their input order (the filter by
any fixed key value is unchanged by the sort), so the output is
chronological regardless of input order. -/
theorem claim_C3_output_chronological (conversations processed_ids : List PyVal)
    (res : ProcResult) (seen2 : List PyVal)
    (hkeys : ∀ conv ∈ validOf conversations, intKeyed conv)
    (hrun : process_conversations conversations processed_ids = .ok (res, seen2)) :
    res.files = (processPairs (sortIKey (validOf conversations)) processed_ids []).map Prod.snd ∧
    List.Pairwise (fun a b => keyInt a.1 ≤ keyInt b.1)
      (processPairs (sortIKey (validOf conversations)) processed_ids []) ∧
    SortedKey (sortIKey (validOf conversations)) ∧
    (∀ v : Int, (sortIKey (validOf conversations)).filter (fun c => decide (keyInt c = v)) =
      (validOf conversations).filter (fun c => decide (keyInt c = v))) := by
  have hsorted : SortedKey (sortIKey (validOf conversations)) :=
    sortGoI_sorted (validOf conversations) [] List.Pairwise.nil
  unfold process_conversations at hrun
  rw [sortByKeyE_int _ hkeys] at hrun
  replace hrun : (match processLoop (sortIKey (validOf conversations)) processed_ids []
        (ProcResult.mk 0 0 0 []) with
      | Except.error e => Except.error e
      | Except.ok out0 => Except.ok (out0.1, out0.2.1)) = Except.ok (res, seen2) := hrun
  cases hl : processLoop (sortIKey (validOf conversations)) processed_ids []
      (ProcResult.mk 0 0 0 []) with
  | error e => rw [hl] at hrun; exact absurd hrun (by simp)
  | ok out2 =>
    rw [hl] at hrun
    simp only [Except.ok.injEq, Prod.mk.injEq] at hrun
    refine ⟨?_, ?_, hsorted, ?_⟩
    · rw [← hrun.1]
      simpa using processLoop_files _ _ _ _ _ hl
    · have hsub := processPairs_fst_sublist (sortIKey (validOf conversations)) processed_ids []
      have hpw : List.Pairwise (fun a b => keyInt a ≤ keyInt b)
          ((processPairs (sortIKey (validOf conversations)) processed_ids []).map Prod.fst) :=
        List.Pairwise.sublist hsub hsorted
      exact (@List.pairwise_map (PyVal × FileData) PyVal Prod.fst
        (fun a b => keyInt a ≤ keyInt b)
        (processPairs (sortIKey (validOf conversations)) processed_ids [])).mp hpw
    · intro v
      simpa using sortGoI_filter v (validOf conversations) [] List.Pairwise.nil

/-- Witness for C3 on a trio of conversations listed newest-first. -/
theorem claim_C3_witness :
    (ProcResult.mk 3 0 0 trioFiles).files =
      (processPairs (sortIKey (validOf [convNewest, convOldest, convMiddle])) [] []).map
        Prod.snd ∧
    List.Pairwise (fun a b => keyInt a.1 ≤ keyInt b.1)
      (processPairs (sortIKey (validOf [convNewest, convOldest, convMiddle])) [] []) :=
  have h := claim_C3_output_chronological [convNewest, convOldest, convMiddle] []
    (ProcResult.mk 3 0 0 trioFiles) [.str "newest", .str "middle", .str "oldest"]
    (by
      intro c hc
      rw [show validOf [convNewest, convOldest, convMiddle] =
        [convNewest, convOldest, convMiddle] from rfl] at hc
      simp only [List.mem_cons, List.not_mem_nil, or_false] at hc
      rcases hc with rfl | rfl | rfl <;> rfl)
    rfl
  ⟨h.1, h.2.1⟩

/-- C4: if the batch is run with a seen-id set containing every id of
the input's valid entries (as after a first run over the same input),
nothing is processed, no file is produced, each valid id-bearing entry
is skipped, each valid entry without an id is counted as an error, and
the seen set is returned unchanged. -/
theorem claim_C4_second_run_idempotent (conversations processed_ids : List PyVal)
    (hkeys : ∀ conv ∈ validOf conversations, intKeyed conv)
    (hseen : ∀ conv ∈ validOf conversations, pyTruthy (convId conv) = true →
      pyHashable (convId conv) = true ∧ pyMemAtom (convId conv) processed_ids = true) :
    process_conversations conversations processed_ids =
      .ok (ProcResult.mk 0
        ((validOf conversations).countP (fun c => pyTruthy (convId c)))
        ((validOf conversations).countP (fun c => !pyTruthy (convId c))) [],
        processed_ids) := by
  have hperm : (sortIKey (validOf conversations)).Perm (validOf conversations) := by
    simpa [sortIKey] using sortGoI_perm (validOf conversations) []
  have hvalid : ∀ conv ∈ sortIKey (validOf conversations),
      (pyTruthy conv && conv.isDict) = true := by
    intro c hc
    exact (List.mem_filter.mp (hperm.mem_iff.mp hc)).2
  have hall := processLoop_all_seen (sortIKey (validOf conversations)) processed_ids []
    (ProcResult.mk 0 0 0 []) hvalid (fun c hc => hseen c (hperm.mem_iff.mp hc))
  rw [process_conversations_eq conversations processed_ids _
    (sortByKeyE_int _ hkeys) _ hall]
  have hc1 := hperm.countP_eq (fun c => pyTruthy (convId c))
  have hc2 := hperm.countP_eq (fun c => !pyTruthy (convId c))
  simp only [Except.ok.injEq, Prod.mk.injEq, ProcResult.mk.injEq, true_and, and_true]
  constructor
  · rw [← hc1]
    omega
  · rw [← hc2]
    omega

/-- Witness for C4: a second run over the "Tips" conversation with its id
already seen skips it and produces nothing. -/
theorem claim_C4_witness :
    process_conversations [tipsConv1] [PyVal.str "t1"] =
      .ok (ProcResult.mk 0
        ((validOf [tipsConv1]).countP (fun c => pyTruthy (convId c)))
        ((validOf [tipsConv1]).countP (fun c => !pyTruthy (convId c))) [],
        [PyVal.str "t1"]) :=
  claim_C4_second_run_idempotent [tipsConv1] [PyVal.str "t1"]
    (by
      intro c hc
      rw [show validOf [tipsConv1] = [tipsConv1] from rfl] at hc
      simp only [List.mem_singleton] at hc
      subst hc
      rfl)
    (by
      intro c hc _
      rw [show validOf [tipsConv1] = [tipsConv1] from rfl] at hc
      simp only [List.mem_singleton] at hc
      subst hc
      exact ⟨rfl, rfl⟩)

/-- C7 counterexample: with mutually incomparable `create_time` values a
`TypeError` escapes the batch processor (the sort at source line 259
runs outside the `try` block), so "returns a result structure and never
raises for every input list" is false as stated. -/
theorem claim_C7_counterexample :
    process_conversations [mixedKeyA, mixedKeyB] [] = .error () := rfl

/-- C7 (amended): for input lists whose valid entries carry mutually
comparable (integer) `create_time` values and hashable ids, the batch
processor returns a result structure and never raises; every
per-conversation rendering failure is absorbed into the error count
inside the loop's `try` block and processing continues. -/
theorem claim_C7_amended (conversations processed_ids : List PyVal)
    (hkeys : ∀ conv ∈ validOf conversations, intKeyed conv)
    (hids : ∀ conv ∈ validOf conversations, pyTruthy (convId conv) = true →
      pyHashable (convId conv) = true) :
    ∃ out, process_conversations conversations processed_ids = .ok out := by
  have hperm : (sortIKey (validOf conversations)).Perm (validOf conversations) := by
    simpa [sortIKey] using sortGoI_perm (validOf conversations) []
  obtain ⟨out, hout⟩ := processLoop_total (sortIKey (validOf conversations)) processed_ids []
    (ProcResult.mk 0 0 0 []) (fun c hc => hids c (hperm.mem_iff.mp hc))
  exact ⟨_, process_conversations_eq conversations processed_ids _
    (sortByKeyE_int _ hkeys) _ hout⟩

/-- Witness for C7 (amended) on the "Tips" conversation. -/
theorem claim_C7_amended_witness :
    ∃ out, process_conversations [tipsConv1] [] = .ok out :=
  claim_C7_amended [tipsConv1] []
    (by
      intro c hc
      rw [show validOf [tipsConv1] = [tipsConv1] from rfl] at hc
      simp only [List.mem_singleton] at hc
      subst hc
      rfl)
    (by
      intro c hc _
      rw [show validOf [tipsConv1] = [tipsConv1] from rfl] at hc
      simp only [List.mem_singleton] at hc
      subst hc
      rfl)

/-- C8 counterexample: for a conversation without a `title` the allocated
filename is indeed "Untitled Conversation.md", but the emitted record's
`title` field is the string "Untitled" (source line 298 defaults to
`'Untitled'`), not "Untitled Conversation", so the claim as stated is
false. -/
theorem claim_C8_counterexample :
    process_conversations [noTitleConv] [] =
      .ok (ProcResult.mk 1 0 0
        [FileData.mk "Untitled Conversation.md" emptyEpochContent
          (.str "Untitled") (.str "c9")], [.str "c9"]) ∧
    PyVal.str "Untitled" ≠ PyVal.str "Untitled Conversation" := by
  refine ⟨rfl, ?_⟩
  intro h
  injection h with h2
  exact absurd h2 (by decide)

/-- C8 (amended): for a conversation whose `title` field is absent, the
allocated filename uses the default "Untitled Conversation" (base
"Untitled Conversation.md" when no name is taken), while the rendered
document contains no title text at all and the emitted record's `title`
field equals "Untitled". -/
theorem claim_C8_amended :
    (∀ (kvs : List (String × PyVal)), kvs.lookup "title" = Option.none →
      generate_filename (.dict kvs) [] = .ok "Untitled Conversation.md") ∧
    containsSub "Untitled Conversation".data emptyEpochContent.data = false := by
  constructor
  · intro kvs h
    unfold generate_filename
    rw [show pyGetE (.dict kvs) "title" (.str "Untitled Conversation") =
        .ok (.str "Untitled Conversation") by simp [pyGetE, pyGetD, h]]
    rfl
  · rfl

/-- Witness for C8 (amended) at the concrete title-less conversation. -/
theorem claim_C8_amended_witness :
    generate_filename noTitleConv [] = .ok "Untitled Conversation.md" :=
  claim_C8_amended.1 [("id", .str "c9"), ("mapping", .dict [])] rfl

/-- C9 counterexample: `clean_filename` keeps the underscore (`\w`
includes it), so "an underscore in the input does not survive" is false:
the input "a_b" is returned unchanged. -/
theorem claim_C9_counterexample :
    clean_filename "a_b" = "a_b" ∧ '_' ∈ ("a_b" : String).data :=
  ⟨rfl, by decide⟩

/-- C9 (amended): `clean_filename` is total and deterministic; for every
input it removes the filesystem-illegal characters, restricts the
remaining text to word characters (letters, digits and the underscore,
which survives), whitespace, period and hyphen, collapses whitespace
runs to single spaces (no two adjacent whitespace characters remain),
never starts with whitespace after the trim, and returns at most 100
characters. -/
theorem claim_C9_amended (s : String) :
    (clean_filename s).length ≤ 100 ∧
    (∀ c ∈ (clean_filename s).data,
      (pyIsWord c || c = ' ' || c = '.' || c = '-') = true ∧ isIllegalFsChar c = false) ∧
    List.Chain' (fun a b => ¬(pyIsSpace a = true ∧ pyIsSpace b = true))
      (clean_filename s).data ∧
    (∀ c, (clean_filename s).data.head? = some c → pyIsSpace c = false) := by
  have hdata : (clean_filename s).data =
      (trimWs (collapseWs (List.filter
        (fun c => pyIsWord c || pyIsSpace c || c = '.' || c = '-')
        (List.filter (fun c => !isIllegalFsChar c) s.data)))).take 100 := rfl
  refine ⟨?_, ?_, ?_, ?_⟩
  · show (clean_filename s).data.length ≤ 100
    rw [hdata, List.length_take]
    omega
  · intro c hc
    rw [hdata] at hc
    have hc2 := List.mem_of_mem_take hc
    have hc3 := ((trimWs_within _).sublist.subset) hc2
    have hallow : (pyIsWord c || c = ' ' || c = '.' || c = '-') = true := by
      rcases collapseGo_mem _ false c hc3 with rfl | ⟨hmem, hns⟩
      · decide
      · have := (List.mem_filter.mp hmem).2
        simp only [Bool.or_eq_true, decide_eq_true_eq] at this ⊢
        rcases this with ((hw | hsP) | hd) | hh
        · exact Or.inl (Or.inl (Or.inl hw))
        · rw [hsP] at hns
          cases hns
        · exact Or.inl (Or.inr hd)
        · exact Or.inr hh
    exact ⟨hallow, allowed_not_illegal c hallow⟩
  · rw [hdata]
    apply List.Chain'.prefix ?_ (List.take_prefix _ _)
    apply List.Chain'.infix ?_ (trimWs_within _)
    exact collapseGo_chain _ false
  · intro c hc
    rw [hdata] at hc
    have hc2 := isPrefix_head (List.take_prefix 100 _) c hc
    exact trimWs_head _ c hc2

/-- Witness for C9 (amended) at a concrete input. -/
theorem claim_C9_witness :
    (clean_filename "a_b  c").length ≤ 100 ∧
    List.Chain' (fun a b => ¬(pyIsSpace a = true ∧ pyIsSpace b = true))
      (clean_filename "a_b  c").data :=
  ⟨(claim_C9_amended "a_b  c").1, (claim_C9_amended "a_b  c").2.2.1⟩

/-- C10: every document the renderer returns contains no private-use-area
code point (U+E000 through U+F8FF): the final pass of the citation
cleaner, applied to the fully assembled document, deletes every
remaining such character regardless of what the earlier passes matched. -/
theorem claim_C10_no_private_use_output (conversation : PyVal) (s : String)
    (h : convert_conversation_to_markdown conversation = .ok s) :
    ∀ c ∈ s.data, isPUA c = false := by
  have hshape : ∃ x, s = clean_citation_artifacts x := by
    unfold convert_conversation_to_markdown at h
    repeat' split at h
    all_goals first
      | (simp only [Except.ok.injEq] at h; exact ⟨_, h.symm⟩)
      | exact absurd h (by simp)
  obtain ⟨x, rfl⟩ := hshape
  intro c hc
  have hmem : c ∈ ccPass4 (ccPass3 (ccPass2 (ccPass1 x.data))) := hc
  unfold ccPass4 at hmem
  have := (List.mem_filter.mp hmem).2
  simpa using this

/-- Witness for C10 at the sample conversation. -/
theorem claim_C10_witness :
    (sampleRendered.data.all (fun c => !isPUA c)) = true :=
  List.all_eq_true.mpr (fun c hc => by
    simpa using claim_C10_no_private_use_output sampleConv sampleRendered rfl c hc)
